import Mathlib

/-!
Verification of the streaming-output contract of the langgraph how-to
notebook `docs/docs/how-tos/streaming.ipynb`.

The notebook defines two node functions (`refine_topic`, `generate_joke`),
wires them into a linear graph, and consumes `graph.stream` in the modes
`values`, `updates`, `debug`, `custom`, and a combined list of modes.  The
node functions are embedded directly from the notebook source.  The graph
runner itself (`graph.stream`) is library code that is not part of the
given source tree; it is modelled here from the specification of the
external streaming contract (spec sections 3, 6, 7, 8).
-/

namespace Streaming

/-- A state record: an ordered mapping from field name to value, as a
Python dict with insertion order. -/
abbrev StateMap := List (String × String)

/-- Keyed read `state[k]` on a state record.  The notebook nodes only read
fields that are present; a missing key is given the empty string here. -/
def getKey (st : StateMap) (k : String) : String :=
  (Option.map Prod.snd (st.find? (fun p => p.1 == k))).getD ""

/-- Modelled from the spec: writing one field of the state record, as a
Python dict assignment; an existing key is overwritten in place, a new key
is appended at the end. -/
def setKey (st : StateMap) (k v : String) : StateMap :=
  if st.any (fun p => p.1 == k) then
    st.map (fun p => if p.1 == k then (k, v) else p)
  else
    st ++ [(k, v)]

/-- Modelled from the spec: keys present after a step reflect the partial
update of that step merged into the prior state. -/
def mergeMap (st upd : StateMap) : StateMap :=
  upd.foldl (fun acc p => setKey acc p.1 p.2) st

/-- The key set of a state record, in order. -/
def keysOf (st : StateMap) : List String :=
  st.map Prod.fst

/-- A graph node: a name together with its step function.  The step
function returns the partial state update and, second, the list of
payloads the step passed to the injected StreamWriter. -/
structure Node where
  name : String
  run : StateMap → StateMap × List StateMap

/-- `refine_topic` from the notebook:
`return {"topic": state["topic"] + " and cats"}`; it writes nothing to a
StreamWriter. -/
def refine_topic (state : StateMap) : StateMap × List StateMap :=
  ([("topic", getKey state "topic" ++ " and cats")], [])

/-- `generate_joke` from the notebook (plain version):
`return` of the joke field derived from the topic field. -/
def generate_joke (state : StateMap) : StateMap × List StateMap :=
  ([("joke", "This is a joke about " ++ getKey state "topic")], [])

/-- `generate_joke` from the notebook (StreamWriter version): it first
calls `writer({"custom_key": "Writing custom data while generating a
joke"})` and then returns the same joke update. -/
def generate_joke_writer (state : StateMap) : StateMap × List StateMap :=
  ([("joke", "This is a joke about " ++ getKey state "topic")],
   [[("custom_key", "Writing custom data while generating a joke")]])

/-- The `refine_topic` node as added by `add_node`. -/
def refineNode : Node :=
  ⟨"refine_topic", refine_topic⟩

/-- The `generate_joke` node of the first graph. -/
def jokeNode : Node :=
  ⟨"generate_joke", generate_joke⟩

/-- The `generate_joke` node of the StreamWriter graph. -/
def jokeWriterNode : Node :=
  ⟨"generate_joke", generate_joke_writer⟩

/-- The compiled linear graph `START -> refine_topic -> generate_joke`. -/
def jokeGraph : List Node :=
  [refineNode, jokeNode]

/-- The same graph with the StreamWriter version of `generate_joke`. -/
def jokeWriterGraph : List Node :=
  [refineNode, jokeWriterNode]

/-- The stream modes of the contract. -/
inductive Mode where
  | values
  | updates
  | custom
  | debug
  | messages
deriving DecidableEq

/-- A stream chunk, for every mode of the contract.  Debug events carry a
step counter, a task id, the node name and, on the task result, the error
field and the interrupts list.  Task ids are opaque unique identifiers in
the library; they are modelled by the step number, which is unique per
task in a linear graph. -/
inductive Chunk where
  | values (state : StateMap)
  | updates (node : String) (update : StateMap)
  | custom (payload : StateMap)
  | task (step : Nat) (id : Nat) (name : String) (input : StateMap)
      (triggers : List String)
  | taskResult (step : Nat) (id : Nat) (name : String) (error : Option String)
      (result : StateMap) (interrupts : List String)
deriving DecidableEq

/-- Modelled from the spec: the tagged chunks one step emits, in temporal
order, for a requested list of modes: the debug `task` event before
execution, the StreamWriter payloads during execution, then the debug
`task_result` event, the updates chunk and the values chunk after
completion.  All steps of the modelled graphs succeed, so the error field
is `none` and the interrupts list is empty. -/
def stepEvents (modes : List Mode) (step : Nat) (trig : String)
    (st : StateMap) (n : Node) : List (Mode × Chunk) :=
  let upd := (n.run st).1
  let writes := (n.run st).2
  (if Mode.debug ∈ modes then
    [(Mode.debug, Chunk.task step step n.name st [trig])] else []) ++
  (if Mode.custom ∈ modes then
    writes.map (fun w => (Mode.custom, Chunk.custom w)) else []) ++
  (if Mode.debug ∈ modes then
    [(Mode.debug, Chunk.taskResult step step n.name none upd [])] else []) ++
  (if Mode.updates ∈ modes then
    [(Mode.updates, Chunk.updates n.name upd)] else []) ++
  (if Mode.values ∈ modes then
    [(Mode.values, Chunk.values (mergeMap st upd))] else [])

/-- Modelled from the spec: run the remaining nodes in step order,
emitting the tagged chunks of each step; the trigger of a step is the name
of the node before it. -/
def streamAux (modes : List Mode) (step : Nat) (trig : String)
    (st : StateMap) : List Node → List (Mode × Chunk)
  | [] => []
  | n :: ns =>
      stepEvents modes step trig st n ++
      streamAux modes (step + 1) n.name (mergeMap st (n.run st).1) ns

/-- Modelled from the spec: `graph.stream(input, stream_mode=modes)` with
a list of modes emits pairs of mode tag and chunk, one pair per underlying
emission.  The values mode additionally emits the initial state before the
first step; the trigger of the first step is `start:` plus its node
name. -/
def streamMulti (modes : List Mode) (init : StateMap)
    (nodes : List Node) : List (Mode × Chunk) :=
  (if Mode.values ∈ modes then [(Mode.values, Chunk.values init)] else []) ++
  streamAux modes 1 ("start:" ++ ((nodes.head?.map Node.name).getD ""))
    init nodes

/-- Modelled from the spec: `graph.stream(input, stream_mode=m)` with a
single mode emits the same chunks without the mode tag. -/
def stream (m : Mode) (init : StateMap) (nodes : List Node) : List Chunk :=
  (streamMulti [m] init nodes).map Prod.snd

/-- The accumulated states after each step, in step order. -/
def execStates (st : StateMap) : List Node → List StateMap
  | [] => []
  | n :: ns =>
      mergeMap st (n.run st).1 :: execStates (mergeMap st (n.run st).1) ns

/-- The node name and partial update of each step, in step order. -/
def execUpdates (st : StateMap) : List Node → List (String × StateMap)
  | [] => []
  | n :: ns => (n.name, (n.run st).1) :: execUpdates (mergeMap st (n.run st).1) ns

/-- All StreamWriter payloads of a run, in emission order. -/
def execWrites (st : StateMap) : List Node → List StateMap
  | [] => []
  | n :: ns => (n.run st).2 ++ execWrites (mergeMap st (n.run st).1) ns

/-- The debug events of a run, in emission order. -/
def execDebug (step : Nat) (trig : String) (st : StateMap) :
    List Node → List Chunk
  | [] => []
  | n :: ns =>
      Chunk.task step step n.name st [trig] ::
      Chunk.taskResult step step n.name none (n.run st).1 [] ::
      execDebug (step + 1) n.name (mergeMap st (n.run st).1) ns

/-- The accumulated state after running a list of nodes. -/
def execState (st : StateMap) (ns : List Node) : StateMap :=
  ns.foldl (fun acc n => mergeMap acc (n.run acc).1) st

/-- The step name an updates chunk carries, if any. -/
def chunkName : Chunk → Option String
  | Chunk.updates nm _ => some nm
  | _ => none

/-- Whether a chunk is a `task_result` debug event with the given id. -/
def isTaskResultWithId (i : Nat) : Chunk → Bool
  | Chunk.taskResult _ id _ _ _ _ => id == i
  | _ => false

section Characterizations

theorem streamAux_values (ns : List Node) :
    ∀ step trig st, streamAux [Mode.values] step trig st ns =
      (execStates st ns).map (fun s => (Mode.values, Chunk.values s)) := by
  induction ns with
  | nil => intro step trig st; rfl
  | cons n ns ih =>
      intro step trig st
      simp [streamAux, stepEvents, execStates, ih]

theorem stream_values_eq (init : StateMap) (ns : List Node) :
    stream Mode.values init ns =
      Chunk.values init :: (execStates init ns).map Chunk.values := by
  simp [stream, streamMulti, streamAux_values]

theorem streamAux_updates (ns : List Node) :
    ∀ step trig st, streamAux [Mode.updates] step trig st ns =
      (execUpdates st ns).map
        (fun p => (Mode.updates, Chunk.updates p.1 p.2)) := by
  induction ns with
  | nil => intro step trig st; rfl
  | cons n ns ih =>
      intro step trig st
      simp [streamAux, stepEvents, execUpdates, ih]

theorem stream_updates_eq (init : StateMap) (ns : List Node) :
    stream Mode.updates init ns =
      (execUpdates init ns).map (fun p => Chunk.updates p.1 p.2) := by
  simp [stream, streamMulti, streamAux_updates]

theorem streamAux_custom (ns : List Node) :
    ∀ step trig st, streamAux [Mode.custom] step trig st ns =
      (execWrites st ns).map (fun w => (Mode.custom, Chunk.custom w)) := by
  induction ns with
  | nil => intro step trig st; rfl
  | cons n ns ih =>
      intro step trig st
      simp [streamAux, stepEvents, execWrites, ih]

theorem stream_custom_eq (init : StateMap) (ns : List Node) :
    stream Mode.custom init ns =
      (execWrites init ns).map Chunk.custom := by
  simp [stream, streamMulti, streamAux_custom]

theorem streamAux_debug (ns : List Node) :
    ∀ step trig st, streamAux [Mode.debug] step trig st ns =
      (execDebug step trig st ns).map (fun c => (Mode.debug, c)) := by
  induction ns with
  | nil => intro step trig st; rfl
  | cons n ns ih =>
      intro step trig st
      simp [streamAux, stepEvents, execDebug, ih]

theorem stream_debug_eq (init : StateMap) (ns : List Node) :
    stream Mode.debug init ns =
      execDebug 1 ("start:" ++ ((ns.head?.map Node.name).getD "")) init ns := by
  simp [stream, streamMulti, streamAux_debug]

end Characterizations

section MapLemmas

theorem keysOf_setKey (st : StateMap) (k v : String) :
    keysOf (setKey st k v) = keysOf st ∨
      keysOf (setKey st k v) = keysOf st ++ [k] := by
  unfold setKey
  split
  · left
    unfold keysOf
    simp only [List.map_map]
    apply List.map_congr_left
    intro p _
    by_cases h : p.1 == k
    · simp only [Function.comp]
      rw [if_pos h]
      exact (eq_of_beq h).symm
    · simp only [Function.comp]
      rw [if_neg (by simpa using h)]
  · right
    simp [keysOf]

theorem mem_keysOf_setKey (st : StateMap) (k v a : String)
    (h : a ∈ keysOf st) : a ∈ keysOf (setKey st k v) := by
  rcases keysOf_setKey st k v with h2 | h2 <;> rw [h2] <;> simp [h]

theorem mem_keysOf_mergeMap (st upd : StateMap) (a : String)
    (h : a ∈ keysOf st) : a ∈ keysOf (mergeMap st upd) := by
  induction upd generalizing st with
  | nil => exact h
  | cons p upd ih =>
      exact ih (setKey st p.1 p.2) (mem_keysOf_setKey st p.1 p.2 a h)

theorem find?_map_setKeyFun (st : StateMap) (k0 v k : String) (h : k ≠ k0) :
    List.find? (fun p => p.1 == k)
        (st.map (fun p => if p.1 == k0 then (k0, v) else p)) =
      List.find? (fun p => p.1 == k) st := by
  induction st with
  | nil => rfl
  | cons p st ih =>
      by_cases hp : p.1 = k0
      · have hbk : (k0 == k) = false := by
          simp [Ne.symm h]
        have hpk : (p.1 == k) = false := by
          simp [hp, Ne.symm h]
        simp only [List.map_cons, List.find?]
        rw [if_pos (by simp [hp])]
        simp only [hbk, hpk]
        exact ih
      · simp only [List.map_cons, List.find?]
        rw [if_neg (by simpa using hp)]
        by_cases hk : p.1 == k
        · simp [hk]
        · simp only [hk]
          exact ih

theorem getKey_setKey_ne (st : StateMap) (k0 v k : String) (h : k ≠ k0) :
    getKey (setKey st k0 v) k = getKey st k := by
  unfold setKey getKey
  split
  · rw [find?_map_setKeyFun st k0 v k h]
  · have hfind : List.find? (fun p => p.1 == k) [(k0, v)] = none := by
      have hbk : (k0 == k) = false := by
        simp [Ne.symm h]
      simp [List.find?, hbk]
    rw [List.find?_append, hfind]
    simp

end MapLemmas

/-- C1: for every topic string `t`, streaming the graph
`refine_topic -> generate_joke` in `values` mode from `{"topic": t}`
yields exactly three chunks: the initial state, the state with topic
`t ++ " and cats"`, and the state with that topic and the joke
`"This is a joke about " ++ t ++ " and cats"`; `refine_topic` maps topic
`t` to `t ++ " and cats"`, and `generate_joke` sets `joke` to
`"This is a joke about "` followed by the topic.  At `t = "ice cream"`
this is exactly the notebook output. -/
theorem values_mode_example (t j : String) :
    stream Mode.values [("topic", t)] jokeGraph =
      [Chunk.values [("topic", t)],
       Chunk.values [("topic", t ++ " and cats")],
       Chunk.values [("topic", t ++ " and cats"),
         ("joke", "This is a joke about " ++ (t ++ " and cats"))]] ∧
    stream Mode.values [("topic", "ice cream")] jokeGraph =
      [Chunk.values [("topic", "ice cream")],
       Chunk.values [("topic", "ice cream and cats")],
       Chunk.values [("topic", "ice cream and cats"),
         ("joke", "This is a joke about ice cream and cats")]] ∧
    (refine_topic [("topic", t)]).1 = [("topic", t ++ " and cats")] ∧
    (generate_joke [("topic", t), ("joke", j)]).1 =
      [("joke", "This is a joke about " ++ t)] := by
  refine ⟨?_, ?_, ?_, ?_⟩
  · simp [stream_values_eq, execStates, jokeGraph, refineNode, jokeNode,
      refine_topic, generate_joke, getKey, mergeMap, setKey]
  · simp [stream_values_eq, execStates, jokeGraph, refineNode, jokeNode,
      refine_topic, generate_joke, getKey, mergeMap, setKey]
  · simp [refine_topic, getKey]
  · simp [generate_joke, getKey]

theorem exec_chain (ns : List Node) :
    ∀ (init : StateMap) (N : Nat), N < ns.length →
      ∃ prev nm upd,
        (init :: execStates init ns)[N]? = some prev ∧
        (execUpdates init ns)[N]? = some (nm, upd) ∧
        (init :: execStates init ns)[N + 1]? = some (mergeMap prev upd) ∧
        mergeMap prev upd = execState init (ns.take (N + 1)) := by
  induction ns with
  | nil => intro init N h; simp at h
  | cons n ns ih =>
      intro init N h
      match N with
      | 0 =>
          refine ⟨init, n.name, (n.run init).1, ?_, ?_, ?_, ?_⟩
          · rfl
          · simp [execUpdates]
          · simp [execStates]
          · simp [execState, execStates]
      | N + 1 =>
          have hN : N < ns.length := by
            simpa using Nat.lt_of_succ_lt_succ h
          obtain ⟨prev, nm, upd, h1, h2, h3, h4⟩ :=
            ih (mergeMap init (n.run init).1) N hN
          refine ⟨prev, nm, upd, ?_, ?_, ?_, ?_⟩
          · simpa [execStates] using h1
          · simpa [execUpdates] using h2
          · simpa [execStates] using h3
          · simpa [execState] using h4

/-- C2: in `values` mode the chunk at index `N + 1` equals the chunk at
index `N` with the partial update of step `N + 1` (the update carried by
the chunk that `updates` mode emits for that step) merged on top of it,
and it is the entire accumulated state after that step. -/
theorem values_chunk_is_merge (init : StateMap) (nodes : List Node)
    (N : Nat) (h : N < nodes.length) :
    ∃ prev nm upd,
      (stream Mode.values init nodes)[N]? = some (Chunk.values prev) ∧
      (stream Mode.updates init nodes)[N]? = some (Chunk.updates nm upd) ∧
      (stream Mode.values init nodes)[N + 1]? =
        some (Chunk.values (mergeMap prev upd)) ∧
      mergeMap prev upd = execState init (nodes.take (N + 1)) := by
  obtain ⟨prev, nm, upd, h1, h2, h3, h4⟩ := exec_chain nodes init N h
  refine ⟨prev, nm, upd, ?_, ?_, ?_, h4⟩
  · rw [stream_values_eq, ← List.map_cons Chunk.values, List.getElem?_map, h1]
    rfl
  · rw [stream_updates_eq, List.getElem?_map, h2]
    rfl
  · rw [stream_values_eq, ← List.map_cons Chunk.values, List.getElem?_map, h3]
    rfl

/-- C2 witness at the notebook input and `N = 0`. -/
theorem values_chunk_is_merge_witness :
    0 < jokeGraph.length ∧
    ∃ prev nm upd,
      (stream Mode.values [("topic", "ice cream")] jokeGraph)[0]? =
        some (Chunk.values prev) ∧
      (stream Mode.updates [("topic", "ice cream")] jokeGraph)[0]? =
        some (Chunk.updates nm upd) ∧
      (stream Mode.values [("topic", "ice cream")] jokeGraph)[1]? =
        some (Chunk.values (mergeMap prev upd)) ∧
      mergeMap prev upd =
        execState [("topic", "ice cream")] (jokeGraph.take 1) :=
  ⟨by simp [jokeGraph],
   values_chunk_is_merge [("topic", "ice cream")] jokeGraph 0
     (by simp [jokeGraph])⟩

theorem states_chain_mergeMap (ns : List Node) :
    ∀ (init : StateMap) (N : Nat) (a b : StateMap),
      (init :: execStates init ns)[N]? = some a →
      (init :: execStates init ns)[N + 1]? = some b →
      ∃ upd, b = mergeMap a upd := by
  induction ns with
  | nil =>
      intro init N a b _ h2
      simp [execStates] at h2
  | cons n ns ih =>
      intro init N a b h1 h2
      match N with
      | 0 =>
          refine ⟨(n.run init).1, ?_⟩
          simp [execStates] at h1 h2
          rw [← h1, ← h2]
      | N + 1 =>
          exact ih (mergeMap init (n.run init).1) N a b
            (by simpa [execStates] using h1)
            (by simpa [execStates] using h2)

/-- C3: in `values` mode, every key of the chunk at index `N` is also a
key of the chunk at index `N + 1`: the key sets grow monotonically. -/
theorem values_keys_monotone (init : StateMap) (nodes : List Node)
    (N : Nat) (prev cur : StateMap) (k : String)
    (h1 : (stream Mode.values init nodes)[N]? = some (Chunk.values prev))
    (h2 : (stream Mode.values init nodes)[N + 1]? =
      some (Chunk.values cur))
    (hk : k ∈ keysOf prev) : k ∈ keysOf cur := by
  rw [stream_values_eq, ← List.map_cons Chunk.values,
    List.getElem?_map] at h1 h2
  have h1' : (init :: execStates init nodes)[N]? = some prev := by
    cases hg : (init :: execStates init nodes)[N]? with
    | none => rw [hg] at h1; simp at h1
    | some a =>
        rw [hg] at h1
        simp only [Option.map_some', Option.some.injEq,
          Chunk.values.injEq] at h1
        rw [h1]
  have h2' : (init :: execStates init nodes)[N + 1]? = some cur := by
    cases hg : (init :: execStates init nodes)[N + 1]? with
    | none => rw [hg] at h2; simp at h2
    | some a =>
        rw [hg] at h2
        simp only [Option.map_some', Option.some.injEq,
          Chunk.values.injEq] at h2
        rw [h2]
  obtain ⟨upd, hupd⟩ := states_chain_mergeMap nodes init N prev cur h1' h2'
  rw [hupd]
  exact mem_keysOf_mergeMap prev upd k hk

/-- C3 witness at the notebook input, `N = 0` and the key `topic`. -/
theorem values_keys_monotone_witness :
    (stream Mode.values [("topic", "ice cream")] jokeGraph)[0]? =
      some (Chunk.values [("topic", "ice cream")]) ∧
    (stream Mode.values [("topic", "ice cream")] jokeGraph)[1]? =
      some (Chunk.values [("topic", "ice cream and cats")]) ∧
    "topic" ∈ keysOf [("topic", "ice cream")] ∧
    "topic" ∈ keysOf [("topic", "ice cream and cats")] :=
  ⟨by decide, by decide, by decide,
   values_keys_monotone [("topic", "ice cream")] jokeGraph 0
     [("topic", "ice cream")] [("topic", "ice cream and cats")] "topic"
     (by decide) (by decide) (by decide)⟩

theorem execUpdates_names (ns : List Node) :
    ∀ st : StateMap,
      (execUpdates st ns).map Prod.fst = ns.map Node.name := by
  induction ns with
  | nil => intro st; rfl
  | cons n ns ih =>
      intro st
      simp [execUpdates, ih]

/-- C4: in `updates` mode the stream has exactly one chunk per executed
step, and the sequence of the step names the chunks carry, in order,
equals the sequence of the executed node names, in order. -/
theorem updates_names_in_order (init : StateMap) (nodes : List Node) :
    (stream Mode.updates init nodes).length = nodes.length ∧
    (stream Mode.updates init nodes).map chunkName =
      nodes.map (fun n => some n.name) := by
  constructor
  · rw [stream_updates_eq, List.length_map,
      ← List.length_map (execUpdates init nodes) Prod.fst,
      execUpdates_names nodes init, List.length_map]
  · rw [stream_updates_eq, List.map_map,
      show (chunkName ∘ fun p : String × StateMap =>
        Chunk.updates p.1 p.2) = (fun p => some p.1) from rfl,
      show (fun p : String × StateMap => some p.1) =
        (Option.some ∘ Prod.fst) from rfl,
      ← List.map_map, execUpdates_names nodes init, List.map_map]
    rfl

/-- The id carried by a debug event; other chunks carry none and give 0. -/
def chunkId : Chunk → Nat
  | Chunk.task _ i _ _ _ => i
  | Chunk.taskResult _ i _ _ _ _ => i
  | _ => 0

theorem execDebug_id_lb (ns : List Node) :
    ∀ (step : Nat) (trig : String) (st : StateMap) (c : Chunk),
      c ∈ execDebug step trig st ns → step ≤ chunkId c := by
  induction ns with
  | nil => intro step trig st c hc; simp [execDebug] at hc
  | cons n ns ih =>
      intro step trig st c hc
      simp only [execDebug, List.mem_cons] at hc
      rcases hc with h | h | h
      · rw [h]; exact Nat.le_refl step
      · rw [h]; exact Nat.le_refl step
      · exact Nat.le_of_succ_le (ih (step + 1) n.name _ c h)

theorem execDebug_id_ub (ns : List Node) :
    ∀ (step : Nat) (trig : String) (st : StateMap) (c : Chunk),
      c ∈ execDebug step trig st ns → chunkId c < step + ns.length := by
  induction ns with
  | nil => intro step trig st c hc; simp [execDebug] at hc
  | cons n ns ih =>
      intro step trig st c hc
      simp only [execDebug, List.mem_cons] at hc
      rcases hc with h | h | h
      · rw [h]; simp [chunkId]
      · rw [h]; simp [chunkId]
      · have := ih (step + 1) n.name _ c h
        simp only [List.length_cons]
        omega

theorem execDebug_countP_lt (ns : List Node) :
    ∀ (step : Nat) (trig : String) (st : StateMap) (i : Nat), i < step →
      (execDebug step trig st ns).countP (isTaskResultWithId i) = 0 := by
  intro step trig st i hi
  refine List.countP_eq_zero.mpr ?_
  intro c hc hp
  have hlb := execDebug_id_lb ns step trig st c hc
  cases c with
  | taskResult s id nm err res intr =>
      have : id = i := by
        simpa [isTaskResultWithId] using hp
      simp [chunkId, this] at hlb
      omega
  | values s => simp [isTaskResultWithId] at hp
  | updates nm u => simp [isTaskResultWithId] at hp
  | custom w => simp [isTaskResultWithId] at hp
  | task s id nm inp tr => simp [isTaskResultWithId] at hp

theorem execDebug_countP_eq_one (ns : List Node) :
    ∀ (step : Nat) (trig : String) (st : StateMap) (i : Nat),
      step ≤ i → i < step + ns.length →
      (execDebug step trig st ns).countP (isTaskResultWithId i) = 1 := by
  induction ns with
  | nil => intro step trig st i h1 h2; simp at h2; omega
  | cons n ns ih =>
      intro step trig st i h1 h2
      rcases Nat.eq_or_lt_of_le h1 with he | hlt
      · subst he
        simp only [execDebug, List.countP_cons]
        rw [execDebug_countP_lt ns (step + 1) n.name _ step
          (Nat.lt_succ_self step)]
        simp [isTaskResultWithId]
      · have hni : (isTaskResultWithId i
            (Chunk.taskResult step step n.name none (n.run st).1 [])) =
            false := by
          simp [isTaskResultWithId]
          omega
        have hnt : (isTaskResultWithId i
            (Chunk.task step step n.name st [trig])) = false := by
          simp [isTaskResultWithId]
        simp only [execDebug, List.countP_cons, hni, hnt]
        rw [ih (step + 1) n.name _ i hlt
          (by simp only [List.length_cons] at h2; omega)]
        simp

theorem execDebug_length (ns : List Node) :
    ∀ (step : Nat) (trig : String) (st : StateMap),
      (execDebug step trig st ns).length = 2 * ns.length := by
  induction ns with
  | nil => intro step trig st; rfl
  | cons n ns ih =>
      intro step trig st
      simp only [execDebug, List.length_cons, ih, List.length_cons]
      omega

theorem execDebug_result_after_task (ns : List Node) :
    ∀ (step : Nat) (trig : String) (st : StateMap) (p i s : Nat)
      (nm : String) (inp : StateMap) (tr : List String),
      (execDebug step trig st ns)[p]? = some (Chunk.task s i nm inp tr) →
      ((execDebug step trig st ns).drop (p + 1)).countP
        (isTaskResultWithId i) = 1 := by
  induction ns with
  | nil => intro step trig st p i s nm inp tr h; simp [execDebug] at h
  | cons n ns ih =>
      intro step trig st p i s nm inp tr h
      match p with
      | 0 =>
          simp only [execDebug, List.getElem?_cons_zero,
            Option.some.injEq, Chunk.task.injEq] at h
          obtain ⟨-, hi, -, -, -⟩ := h
          simp only [execDebug, List.drop_succ_cons, List.drop_zero,
            List.countP_cons]
          rw [execDebug_countP_lt ns (step + 1) n.name _ i (by omega)]
          simp [isTaskResultWithId, hi]
      | 1 =>
          simp only [execDebug, List.getElem?_cons_succ,
            List.getElem?_cons_zero] at h
          exact absurd h (by simp)
      | p + 2 =>
          simp only [execDebug, List.getElem?_cons_succ] at h
          simpa only [execDebug, List.drop_succ_cons] using
            ih (step + 1) n.name _ p i s nm inp tr h

/-- C5: in `debug` mode, if a `task` event with id `i` stands at position
`p` of the stream, then exactly one `task_result` event with the same id
occurs after position `p`, exactly one occurs in the whole stream, and the
stream has exactly two events per executed step. -/
theorem debug_task_then_one_result (init : StateMap) (nodes : List Node)
    (p i s : Nat) (nm : String) (inp : StateMap) (tr : List String)
    (h : (stream Mode.debug init nodes)[p]? =
      some (Chunk.task s i nm inp tr)) :
    ((stream Mode.debug init nodes).drop (p + 1)).countP
        (isTaskResultWithId i) = 1 ∧
    (stream Mode.debug init nodes).countP (isTaskResultWithId i) = 1 ∧
    (stream Mode.debug init nodes).length = 2 * nodes.length := by
  rw [stream_debug_eq] at h ⊢
  refine ⟨execDebug_result_after_task nodes 1 _ init p i s nm inp tr h, ?_,
    execDebug_length nodes 1 _ init⟩
  have hmem := List.getElem?_mem h
  have hlb := execDebug_id_lb nodes 1 _ init _ hmem
  have hub := execDebug_id_ub nodes 1 _ init _ hmem
  simp only [chunkId] at hlb hub
  exact execDebug_countP_eq_one nodes 1 _ init i hlb hub

/-- C5 witness: the first debug event of the notebook run is the `task`
event of `refine_topic`, and it is followed by exactly one matching
`task_result`. -/
theorem debug_task_then_one_result_witness :
    (stream Mode.debug [("topic", "ice cream")] jokeGraph)[0]? =
      some (Chunk.task 1 1 "refine_topic" [("topic", "ice cream")]
        ["start:refine_topic"]) ∧
    ((stream Mode.debug [("topic", "ice cream")] jokeGraph).drop 1).countP
        (isTaskResultWithId 1) = 1 ∧
    (stream Mode.debug [("topic", "ice cream")] jokeGraph).countP
        (isTaskResultWithId 1) = 1 ∧
    (stream Mode.debug [("topic", "ice cream")] jokeGraph).length =
      2 * jokeGraph.length :=
  ⟨by decide,
   debug_task_then_one_result [("topic", "ice cream")] jokeGraph 0 1 1
     "refine_topic" [("topic", "ice cream")] ["start:refine_topic"]
     (by decide)⟩

theorem execDebug_result_fields (ns : List Node) :
    ∀ (step : Nat) (trig : String) (st : StateMap) (s i : Nat)
      (nm : String) (err : Option String) (res : StateMap)
      (intr : List String),
      Chunk.taskResult s i nm err res intr ∈ execDebug step trig st ns →
      err = none ∧ intr = [] := by
  induction ns with
  | nil => intro step trig st s i nm err res intr h; simp [execDebug] at h
  | cons n ns ih =>
      intro step trig st s i nm err res intr h
      simp only [execDebug, List.mem_cons] at h
      rcases h with h | h | h
      · exact absurd h (by simp)
      · simp only [Chunk.taskResult.injEq] at h
        exact ⟨h.2.2.2.1, h.2.2.2.2.2⟩
      · exact ih (step + 1) n.name _ s i nm err res intr h

/-- C8: every `task_result` event of a `debug` stream carries `error =
none` (all modelled steps succeed) and an empty `interrupts` list (no
interrupt occurs). -/
theorem task_result_error_interrupts (init : StateMap) (nodes : List Node)
    (p s i : Nat) (nm : String) (err : Option String) (res : StateMap)
    (intr : List String)
    (h : (stream Mode.debug init nodes)[p]? =
      some (Chunk.taskResult s i nm err res intr)) :
    err = none ∧ intr = [] := by
  rw [stream_debug_eq] at h
  exact execDebug_result_fields nodes 1 _ init s i nm err res intr
    (List.getElem?_mem h)

/-- C8 witness: the `task_result` event of `refine_topic` in the notebook
run carries a null error and an empty interrupts list. -/
theorem task_result_error_interrupts_witness :
    (stream Mode.debug [("topic", "ice cream")] jokeGraph)[1]? =
      some (Chunk.taskResult 1 1 "refine_topic" none
        [("topic", "ice cream and cats")] []) ∧
    (none : Option String) = none ∧ ([] : List String) = [] :=
  ⟨by decide,
   task_result_error_interrupts [("topic", "ice cream")] jokeGraph 1 1 1
     "refine_topic" none [("topic", "ice cream and cats")] []
     (by decide)⟩

/-- Whether a tagged emission carries the `custom` mode tag. -/
def isCustomTag (p : Mode × Chunk) : Bool :=
  decide (p.1 = Mode.custom)

/-- Whether a tagged emission carries a tag other than `custom`. -/
def notCustomTag (p : Mode × Chunk) : Bool :=
  decide (p.1 ≠ Mode.custom)

/-- Whether a tagged emission carries a tag other than `updates`. -/
def notUpdatesTag (p : Mode × Chunk) : Bool :=
  decide (p.1 ≠ Mode.updates)

/-- The non-custom part of the emissions of one step, computed from the
node name and the partial update alone: the StreamWriter payloads do not
occur in it. -/
def nonCustomEvents (modes : List Mode) (step : Nat) (trig : String)
    (st : StateMap) (nm : String) (upd : StateMap) : List (Mode × Chunk) :=
  (if Mode.debug ∈ modes then
    [(Mode.debug, Chunk.task step step nm st [trig])] else []) ++
  (if Mode.debug ∈ modes then
    [(Mode.debug, Chunk.taskResult step step nm none upd [])] else []) ++
  (if Mode.updates ∈ modes then
    [(Mode.updates, Chunk.updates nm upd)] else []) ++
  (if Mode.values ∈ modes then
    [(Mode.values, Chunk.values (mergeMap st upd))] else [])

theorem filter_map_custom (p : List StateMap) :
    (p.map (fun w => (Mode.custom, Chunk.custom w))).filter isCustomTag =
      p.map (fun w => (Mode.custom, Chunk.custom w)) :=
  List.filter_eq_self.mpr (by
    intro a ha
    obtain ⟨w, -, rfl⟩ := List.mem_map.mp ha
    simp [isCustomTag])

theorem notFilter_map_custom (p : List StateMap) :
    (p.map (fun w => (Mode.custom, Chunk.custom w))).filter notCustomTag =
      [] := by
  rw [List.filter_eq_nil_iff]
  intro a ha
  obtain ⟨w, -, rfl⟩ := List.mem_map.mp ha
  simp [notCustomTag]

theorem custom_filter_stepEvents (modes : List Mode) (step : Nat)
    (trig : String) (st : StateMap) (n : Node) :
    (stepEvents modes step trig st n).filter isCustomTag =
      if Mode.custom ∈ modes then
        ((n.run st).2).map (fun w => (Mode.custom, Chunk.custom w))
      else [] := by
  by_cases hd : Mode.debug ∈ modes <;>
    by_cases hc : Mode.custom ∈ modes <;>
    by_cases hu : Mode.updates ∈ modes <;>
    by_cases hv : Mode.values ∈ modes <;>
    simp [stepEvents, hd, hc, hu, hv, List.filter_append,
      filter_map_custom, isCustomTag, List.filter]

theorem noncustom_filter_stepEvents (modes : List Mode) (step : Nat)
    (trig : String) (st : StateMap) (n : Node) :
    (stepEvents modes step trig st n).filter notCustomTag =
      nonCustomEvents modes step trig st n.name (n.run st).1 := by
  by_cases hd : Mode.debug ∈ modes <;>
    by_cases hc : Mode.custom ∈ modes <;>
    by_cases hu : Mode.updates ∈ modes <;>
    by_cases hv : Mode.values ∈ modes <;>
    simp [stepEvents, nonCustomEvents, hd, hc, hu, hv, List.filter_append,
      notFilter_map_custom, notCustomTag, List.filter]

theorem custom_filter_streamAux (modes : List Mode)
    (hm : Mode.custom ∈ modes) (ns : List Node) :
    ∀ (step : Nat) (trig : String) (st : StateMap),
      (streamAux modes step trig st ns).filter isCustomTag =
        (execWrites st ns).map (fun w => (Mode.custom, Chunk.custom w)) := by
  induction ns with
  | nil => intro step trig st; rfl
  | cons n ns ih =>
      intro step trig st
      rw [streamAux, List.filter_append, custom_filter_stepEvents,
        if_pos hm, ih, execWrites, List.map_append]

/-- C7: with the `custom` mode among the requested modes, the
custom-tagged emissions of the whole stream are exactly the payloads
passed to the StreamWriter, in order; within one step the custom-tagged
emissions are computed from the StreamWriter payloads alone, and the
remaining emissions are computed from the node name and the returned
partial update alone, so writer emissions and the return value of a step
do not alter one another. -/
theorem custom_writer_surfaced (modes : List Mode) (init : StateMap)
    (nodes : List Node) (step : Nat) (trig : String) (st : StateMap)
    (n : Node) (hm : Mode.custom ∈ modes) :
    ((streamMulti modes init nodes).filter isCustomTag).map Prod.snd =
      (execWrites init nodes).map Chunk.custom ∧
    (stepEvents modes step trig st n).filter isCustomTag =
      ((n.run st).2).map (fun w => (Mode.custom, Chunk.custom w)) ∧
    (stepEvents modes step trig st n).filter notCustomTag =
      nonCustomEvents modes step trig st n.name (n.run st).1 := by
  refine ⟨?_, ?_, noncustom_filter_stepEvents modes step trig st n⟩
  · rw [streamMulti, List.filter_append, custom_filter_streamAux modes hm]
    have hinit : (if Mode.values ∈ modes then
        [(Mode.values, Chunk.values init)] else []).filter isCustomTag =
        [] := by
      split <;> simp [isCustomTag, List.filter]
    rw [hinit, List.nil_append, List.map_map]
    rfl
  · rw [custom_filter_stepEvents, if_pos hm]

/-- C7 witness at the combined-mode notebook run. -/
theorem custom_writer_surfaced_witness :
    Mode.custom ∈ [Mode.updates, Mode.custom] ∧
    (((streamMulti [Mode.updates, Mode.custom] [("topic", "ice cream")]
          jokeWriterGraph).filter isCustomTag).map Prod.snd =
      (execWrites [("topic", "ice cream")] jokeWriterGraph).map
        Chunk.custom ∧
    (stepEvents [Mode.updates, Mode.custom] 2 "refine_topic"
          [("topic", "ice cream and cats")] jokeWriterNode).filter
        isCustomTag =
      ((jokeWriterNode.run [("topic", "ice cream and cats")]).2).map
        (fun w => (Mode.custom, Chunk.custom w)) ∧
    (stepEvents [Mode.updates, Mode.custom] 2 "refine_topic"
          [("topic", "ice cream and cats")] jokeWriterNode).filter
        notCustomTag =
      nonCustomEvents [Mode.updates, Mode.custom] 2 "refine_topic"
        [("topic", "ice cream and cats")] jokeWriterNode.name
        (jokeWriterNode.run [("topic", "ice cream and cats")]).1) :=
  ⟨by decide,
   custom_writer_surfaced [Mode.updates, Mode.custom]
     [("topic", "ice cream")] jokeWriterGraph 2 "refine_topic"
     [("topic", "ice cream and cats")] jokeWriterNode (by decide)⟩

theorem stepEvents_tag_mem (modes : List Mode) (step : Nat) (trig : String)
    (st : StateMap) (n : Node) (m : Mode) (c : Chunk)
    (h : (m, c) ∈ stepEvents modes step trig st n) : m ∈ modes := by
  simp only [stepEvents, List.mem_append, List.mem_ite_nil_right,
    List.mem_singleton, List.mem_map, Prod.mk.injEq] at h
  rcases h with ((((⟨h1, h2⟩ | ⟨h1, w, -, hme, -⟩) | ⟨h1, h2⟩) |
    ⟨h1, h2⟩) | ⟨h1, h2⟩)
  · rw [h2.1]; exact h1
  · rw [← hme]; exact h1
  · rw [h2.1]; exact h1
  · rw [h2.1]; exact h1
  · rw [h2.1]; exact h1

theorem streamAux_tag_mem (modes : List Mode) (ns : List Node) :
    ∀ (step : Nat) (trig : String) (st : StateMap) (m : Mode) (c : Chunk),
      (m, c) ∈ streamAux modes step trig st ns → m ∈ modes := by
  induction ns with
  | nil => intro step trig st m c h; simp [streamAux] at h
  | cons n ns ih =>
      intro step trig st m c h
      rw [streamAux, List.mem_append] at h
      rcases h with h | h
      · exact stepEvents_tag_mem modes step trig st n m c h
      · exact ih (step + 1) n.name _ m c h

/-- C6: with a list of requested modes, every emitted item is a pair whose
first element is one of the requested mode tags. -/
theorem multi_mode_tags (modes : List Mode) (init : StateMap)
    (nodes : List Node) (m : Mode) (c : Chunk)
    (h : (m, c) ∈ streamMulti modes init nodes) : m ∈ modes := by
  rw [streamMulti, List.mem_append] at h
  rcases h with h | h
  · rw [List.mem_ite_nil_right, List.mem_singleton] at h
    rw [(Prod.mk.injEq _ _ _ _).mp h.2 |>.1]
    exact h.1
  · exact streamAux_tag_mem modes nodes 1 _ init m c h

/-- C6 witness: the first emission of the combined-mode notebook run is
tagged `updates`, one of the requested tags. -/
theorem multi_mode_tags_witness :
    (Mode.updates, Chunk.updates "refine_topic"
        [("topic", "ice cream and cats")]) ∈
      streamMulti [Mode.updates, Mode.custom] [("topic", "ice cream")]
        jokeWriterGraph ∧
    Mode.updates ∈ [Mode.updates, Mode.custom] :=
  ⟨by decide,
   multi_mode_tags [Mode.updates, Mode.custom] [("topic", "ice cream")]
     jokeWriterGraph Mode.updates
     (Chunk.updates "refine_topic" [("topic", "ice cream and cats")])
     (by decide)⟩

/-- C9: each node returns an update containing only the single field that
node writes: `refine_topic` only `topic` and `generate_joke` only `joke`;
merging such an update leaves the other field of the state unchanged
across that step. -/
theorem node_update_frame (st : StateMap) :
    keysOf (refine_topic st).1 = ["topic"] ∧
    keysOf (generate_joke st).1 = ["joke"] ∧
    keysOf (generate_joke_writer st).1 = ["joke"] ∧
    getKey (mergeMap st (refine_topic st).1) "joke" = getKey st "joke" ∧
    getKey (mergeMap st (generate_joke st).1) "topic" = getKey st "topic" ∧
    getKey (mergeMap st (generate_joke_writer st).1) "topic" =
      getKey st "topic" := by
  refine ⟨rfl, rfl, rfl, ?_, ?_, ?_⟩
  · exact getKey_setKey_ne st "topic" _ "joke" (by decide)
  · exact getKey_setKey_ne st "joke" _ "topic" (by decide)
  · exact getKey_setKey_ne st "joke" _ "topic" (by decide)

/-- C10: in the combined-mode notebook run the StreamWriter payload of
`generate_joke` is emitted after the `updates` chunk of `refine_topic`
and before the `updates` chunk of `generate_joke` itself; in general the
emissions of one step split into a first part free of `updates` chunks,
holding the StreamWriter payloads, followed by a part free of `custom`
chunks, holding the updates chunk. -/
theorem custom_before_updates :
    streamMulti [Mode.updates, Mode.custom] [("topic", "ice cream")]
        jokeWriterGraph =
      [(Mode.updates, Chunk.updates "refine_topic"
          [("topic", "ice cream and cats")]),
       (Mode.custom, Chunk.custom
          [("custom_key", "Writing custom data while generating a joke")]),
       (Mode.updates, Chunk.updates "generate_joke"
          [("joke", "This is a joke about ice cream and cats")])] ∧
    ∀ (modes : List Mode) (step : Nat) (trig : String) (st : StateMap)
      (n : Node),
      ∃ l₁ l₂, stepEvents modes step trig st n = l₁ ++ l₂ ∧
        l₁.all notUpdatesTag = true ∧ l₂.all notCustomTag = true := by
  constructor
  · decide
  · intro modes step trig st n
    refine ⟨(if Mode.debug ∈ modes then
        [(Mode.debug, Chunk.task step step n.name st [trig])] else []) ++
      (if Mode.custom ∈ modes then
        ((n.run st).2).map (fun w => (Mode.custom, Chunk.custom w))
        else []),
      (if Mode.debug ∈ modes then
        [(Mode.debug, Chunk.taskResult step step n.name none
          (n.run st).1 [])] else []) ++
      ((if Mode.updates ∈ modes then
        [(Mode.updates, Chunk.updates n.name (n.run st).1)] else []) ++
      (if Mode.values ∈ modes then
        [(Mode.values, Chunk.values (mergeMap st (n.run st).1))] else [])),
      ?_, ?_, ?_⟩
    · simp only [stepEvents, List.append_assoc]
    · rw [List.all_append]
      refine Bool.and_eq_true_iff.mpr ⟨?_, ?_⟩
      · split <;> simp [notUpdatesTag]
      · split
        · rw [List.all_eq_true]
          intro p hp
          obtain ⟨w, -, rfl⟩ := List.mem_map.mp hp
          simp [notUpdatesTag]
        · rfl
    · rw [List.all_append]
      refine Bool.and_eq_true_iff.mpr ⟨?_, ?_⟩
      · split <;> simp [notCustomTag]
      · rw [List.all_append]
        refine Bool.and_eq_true_iff.mpr ⟨?_, ?_⟩
        · split <;> simp [notCustomTag]
        · split <;> simp [notCustomTag]

end Streaming
